import Mathlib

/-!
Verification development for the Retrieval Decision & Execution Engine of the
ai-rag-platform repository.  The definitions below are a shallow embedding of
the TypeScript sources:

  * `lib/excel/utils.ts`   — `validators.isValidSqlQuery`, `transformers.normalizeTableName`
  * `lib/excel/sqlite.ts`  — `executeSqlQuery`, `executeSimpleSqlQuery`,
                             `applyWhereClause`, `applyOrderByClause`
  * `lib/excel/agent.ts`   — `decideDataSource`, `executeIterativeAgent`
  * `lib/vector/query.ts`  — `queryProjectChunks` (the token-budgeting variant)

Strings are modelled as `List Char`.  JavaScript regular expressions used by the
source are hand-compiled to leftmost-match scanners with the same backtracking
behaviour (greedy and lazy quantifiers are resolved exactly as the JS engine
resolves them for these concrete patterns; the dot does not match a newline).
JavaScript numbers that the claims reason about are modelled as `ℚ` for
confidences/scores and `Nat` for counts.  Character classes use the ASCII
fragment of the JS semantics, which covers every input appearing in the claims.
-/

abbrev Chars := List Char

def str (s : String) : Chars := s.data

/-- Whitespace test modelling the ASCII fragment of the JS `\s` class and of
`String.prototype.trim`. -/
def isWsChar (c : Char) : Bool :=
  c == ' ' || c == '\t' || c == '\n' || c == '\r' ||
  c == Char.ofNat 11 || c == Char.ofNat 12

/-- The single-quote character, written by code point. -/
def aposChar : Char := Char.ofNat 39

def isQuoteChar (c : Char) : Bool := c == aposChar || c == '"'

def nonQuote (c : Char) : Bool := !(isQuoteChar c)

/-- Lowercasing a JS string (`toLowerCase`), ASCII fragment. -/
def lowerStr (l : Chars) : Chars := l.map Char.toLower

/-- JS `String.prototype.trim`: drop whitespace from both ends. -/
def trimChars (l : Chars) : Chars :=
  ((l.dropWhile isWsChar).reverse.dropWhile isWsChar).reverse

/-- Match a literal at the head of the input; return the remaining input. -/
def litAt : Chars → Chars → Option Chars
  | [], l => some l
  | _ :: _, [] => none
  | p :: ps, c :: cs => if c = p then litAt ps cs else none

/-- Case-insensitive literal match (the pattern is given lowercase). -/
def litCIAt : Chars → Chars → Option Chars
  | [], l => some l
  | _ :: _, [] => none
  | p :: ps, c :: cs => if c.toLower = p then litCIAt ps cs else none

def startsWithLit (pat l : Chars) : Bool := (litAt pat l).isSome

/-- Substring test (JS `includes` / an unanchored regex literal). -/
def containsSub (pat : Chars) : Chars → Bool
  | [] => (litAt pat []).isSome
  | c :: cs => (litAt pat (c :: cs)).isSome || containsSub pat cs

/-- Leftmost-match driver: try the pattern at every start position, take the
first success, exactly as a JS regex `match` without the global flag. -/
def scanFirst (f : Chars → Option α) : Chars → Option α
  | [] => f []
  | c :: cs =>
    match f (c :: cs) with
    | some r => some r
    | none => scanFirst f cs

/-- Identifier class `[a-z0-9_]` (no ignore-case flag). -/
def isLowerAlnum (c : Char) : Bool :=
  ('a' ≤ c && c ≤ 'z') || c.isDigit || c == '_'

/-- Identifier class `[a-z0-9_]` under the regex `i` flag. -/
def isCondIdentChar (c : Char) : Bool :=
  ('a' ≤ c && c ≤ 'z') || ('A' ≤ c && c ≤ 'Z') || c.isDigit || c == '_'

/-- Class `[a-z0-9_"]` used by the FROM-clause pattern. -/
def isFromNameChar (c : Char) : Bool := isLowerAlnum c || c == '"'

def digitsToNat (ds : Chars) : Nat :=
  ds.foldl (fun a c => a * 10 + (c.toNat - 48)) 0

/-- One attempt of `from\s+([a-z0-9_"]+)` anchored at the head. -/
def tryFromAt (l : Chars) : Option Chars :=
  match litAt (str ("from")) l with
  | none => none
  | some r =>
    match r with
    | [] => none
    | c :: cs =>
      if isWsChar c then
        let name := (cs.dropWhile isWsChar).takeWhile isFromNameChar
        if name.isEmpty then none else some name
      else none

/-- Leftmost match of `from\s+([a-z0-9_"]+)`, capture group 1. -/
def findFromName (q : Chars) : Option Chars := scanFirst tryFromAt q

/-- Match `\s+kw` at the head (greedy whitespace, then the literal); returns
the input after the literal. -/
def wsThenLit (kw l : Chars) : Option Chars :=
  match l with
  | [] => none
  | c :: cs => if isWsChar c then litAt kw (cs.dropWhile isWsChar) else none

/-- Terminator alternatives of the WHERE-clause pattern:
`\s+order\s+by`, `\s+group\s+by`, `\s+limit`, or end of input. -/
def termWhere (l : Chars) : Bool :=
  (match wsThenLit (str ("order")) l with
   | some r => (wsThenLit (str ("by")) r).isSome
   | none => false) ||
  (match wsThenLit (str ("group")) l with
   | some r => (wsThenLit (str ("by")) r).isSome
   | none => false) ||
  (wsThenLit (str ("limit")) l).isSome || l.isEmpty

/-- Terminator alternatives of the ORDER-BY pattern: `\s+limit` or end. -/
def termOrder (l : Chars) : Bool :=
  (wsThenLit (str ("limit")) l).isSome || l.isEmpty

/-- The lazy group `(.+?)` followed by a terminator: the shortest non-empty
newline-free prefix after which the terminator matches. -/
def lazyCap (term : Chars → Bool) : Chars → Option Chars
  | [] => none
  | c :: cs =>
    if c = '\n' then none
    else if term cs then some [c]
    else
      match lazyCap term cs with
      | some v => some (c :: v)
      | none => none

/-- Greedy `\s*` before a lazy capture, with JS backtracking: prefer consuming
more whitespace; if the capture fails there, retry with the whitespace
character handed to the capture (the dot matches non-newline whitespace). -/
def wsMoreLazyCap (term : Chars → Bool) : Chars → Option Chars
  | [] => none
  | c :: cs =>
    if isWsChar c then
      match wsMoreLazyCap term cs with
      | some v => some v
      | none => lazyCap term (c :: cs)
    else lazyCap term (c :: cs)

/-- One attempt of `where\s+(.+?)(?:\s+order\s+by|\s+group\s+by|\s+limit|$)`
anchored at the head; returns capture group 1. -/
def tryWhereAt (l : Chars) : Option Chars :=
  match litAt (str ("where")) l with
  | none => none
  | some r =>
    match r with
    | [] => none
    | c :: cs => if isWsChar c then wsMoreLazyCap termWhere cs else none

def findWhereClause (q : Chars) : Option Chars := scanFirst tryWhereAt q

/-- One attempt of `order\s+by\s+(.+?)(?:\s+limit|$)` anchored at the head. -/
def tryOrderAt (l : Chars) : Option Chars :=
  match litAt (str ("order")) l with
  | none => none
  | some r =>
    match wsThenLit (str ("by")) r with
    | none => none
    | some r2 =>
      match r2 with
      | [] => none
      | c :: cs => if isWsChar c then wsMoreLazyCap termOrder cs else none

def findOrderClause (q : Chars) : Option Chars := scanFirst tryOrderAt q

/-- One attempt of `limit\s+(\d+)` anchored at the head. -/
def tryLimitAt (l : Chars) : Option Nat :=
  match litAt (str ("limit")) l with
  | none => none
  | some r =>
    match r with
    | [] => none
    | c :: cs =>
      if isWsChar c then
        let ds := (cs.dropWhile isWsChar).takeWhile Char.isDigit
        if ds.isEmpty then none else some (digitsToNat ds)
      else none

def findLimitN (q : Chars) : Option Nat := scanFirst tryLimitAt q

/-- Rows of a table: an ordered association of column name to string value
(JS object fields; values reach the engine through `toString`). -/
abbrev Row := List (Chars × Chars)

/-- The in-memory data file: table name to rows, as loaded from JSON. -/
abbrev TableData := List (Chars × List Row)

def assocFind (k : Chars) : List (Chars × β) → Option β
  | [] => none
  | (k2, v) :: rest => if k = k2 then some v else assocFind k rest

/-- Value part of the condition pattern, `['"]?([^'"]+)['"]?` applied after the
equals sign and its greedy `\s*` (which this function is handed separately):
an optional opening quote, then one or more non-quote characters. -/
def greedyVal (s : Chars) : Option Chars :=
  match s with
  | [] => none
  | c :: cs =>
    if isQuoteChar c then
      match cs with
      | [] => none
      | d :: _ => if isQuoteChar d then none else some (cs.takeWhile nonQuote)
    else some (s.takeWhile nonQuote)

/-- One attempt of `([a-z0-9_]+)\s*=\s*['"]?([^'"]+)['"]?` (with the `i` flag)
anchored at the head, returning the column and value captures.  When the
greedy-whitespace path after `=` leaves nothing the value class can match, the
JS engine backtracks one whitespace character, which then matches `[^'"]+` on
its own; the `getLast?` branch reproduces that. -/
def tryCondAt (l : Chars) : Option (Chars × Chars) :=
  let col := l.takeWhile isCondIdentChar
  if col.isEmpty then none
  else
    match (l.drop col.length).dropWhile isWsChar with
    | '=' :: r2 =>
      let w := r2.takeWhile isWsChar
      let s := r2.drop w.length
      (match greedyVal s with
       | some v => some (col, v)
       | none =>
         match w.getLast? with
         | some wc => some (col, [wc])
         | none => none)
    | _ => none

/-- Leftmost match of the equality-condition pattern inside one condition. -/
def parseCondition (cond : Chars) : Option (Chars × Chars) :=
  scanFirst tryCondAt cond

/-- Separator of `split(/\s+and\s+/i)`: length of a match anchored here. -/
def sepAndLen (l : Chars) : Option Nat :=
  let w1 := l.takeWhile isWsChar
  if w1.isEmpty then none
  else
    match litCIAt (str ("and")) (l.drop w1.length) with
    | none => none
    | some r2 =>
      let w2 := r2.takeWhile isWsChar
      if w2.isEmpty then none else some (w1.length + 3 + w2.length)

/-- Separator of `split(/\s*,\s*/)`: length of a match anchored here. -/
def sepCommaLen (l : Chars) : Option Nat :=
  let w1 := l.takeWhile isWsChar
  match l.drop w1.length with
  | ',' :: r2 => some (w1.length + 1 + (r2.takeWhile isWsChar).length)
  | _ => none

/-- JS `String.prototype.split` on a regex separator, fuelled so that the
recursion is structural (one unit of fuel per scanned position suffices). -/
def splitSepFuel (sep : Chars → Option Nat) : Nat → Chars → Chars → List Chars
  | 0, acc, _ => [acc.reverse]
  | _ + 1, acc, [] => [acc.reverse]
  | fuel + 1, acc, c :: cs =>
    match sep (c :: cs) with
    | some n => acc.reverse :: splitSepFuel sep fuel [] ((c :: cs).drop n)
    | none => splitSepFuel sep fuel (c :: acc) cs

def splitBySep (sep : Chars → Option Nat) (l : Chars) : List Chars :=
  splitSepFuel sep (l.length + 1) [] l

def splitAnd (l : Chars) : List Chars := splitBySep sepAndLen l

def splitComma (l : Chars) : List Chars := splitBySep sepCommaLen l

/-- Evaluation of one AND-separated condition against a row:
`row[column]?.toString().toLowerCase() === value.toLowerCase()` when the
condition parses, and `true` — include the row — when it does not. -/
def condHolds (row : Row) (cond : Chars) : Bool :=
  match parseCondition cond with
  | some (col, v) =>
    match assocFind col row with
    | some rv => lowerStr rv == lowerStr v
    | none => false
  | none => true

/-- The `applyWhereClause` helper of `lib/excel/sqlite.ts`. -/
def applyWhereClause (data : List Row) (whereClause : Chars) : List Row :=
  data.filter (fun row => (splitAnd whereClause).all (condHolds row))

/-- One attempt of `([a-z0-9_]+)\s+(asc|desc)?` (with the `i` flag); the
boolean is the reversed-direction flag (`direction === 'desc'`). -/
def tryOrderCfgAt (l : Chars) : Option (Chars × Bool) :=
  let col := l.takeWhile isCondIdentChar
  if col.isEmpty then none
  else
    match l.drop col.length with
    | [] => none
    | c :: cs =>
      if isWsChar c then
        let r := cs.dropWhile isWsChar
        match litCIAt (str ("asc")) r with
        | some _ => some (col, false)
        | none =>
          match litCIAt (str ("desc")) r with
          | some _ => some (col, true)
          | none => some (col, false)
      else none

/-- Sort configurations of an ORDER BY clause (`null` entries filtered out). -/
def parseOrderConfigs (clause : Chars) : List (Chars × Bool) :=
  (splitComma clause).filterMap (scanFirst tryOrderCfgAt)

/-- Sort key: `row[config.column]?.toString().toLowerCase() || ''`. -/
def sortKeyOf (row : Row) (col : Chars) : Chars :=
  match assocFind col row with
  | some v => lowerStr v
  | none => []

/-- JS string `<`: lexicographic on code units. -/
def ltChars : Chars → Chars → Bool
  | [], [] => false
  | [], _ :: _ => true
  | _ :: _, [] => false
  | x :: xs, y :: ys => if x < y then true else if y < x then false else ltChars xs ys

/-- The multi-key comparator built by `applyOrderByClause`; returns the sign
the JS comparator returns. -/
def cmpRows : List (Chars × Bool) → Row → Row → Int
  | [], _, _ => 0
  | (col, rev) :: rest, a, b =>
    let av := sortKeyOf a col
    let bv := sortKeyOf b col
    if ltChars av bv then (if rev then 1 else -1)
    else if ltChars bv av then (if rev then -1 else 1)
    else cmpRows rest a b

/-- Stable insertion step: place `c` before the first element it may precede.
`pre c d` means the comparator puts `c` at or before `d`. -/
def insertPre (pre : α → α → Bool) (c : α) : List α → List α
  | [] => [c]
  | d :: ds => if pre c d then c :: d :: ds else d :: insertPre pre c ds

/-- Stable sort by a consistent comparator (JS `Array.prototype.sort` is
stable, and for a consistent comparator every stable sort agrees). -/
def sortPre (pre : α → α → Bool) : List α → List α
  | [] => []
  | c :: cs => insertPre pre c (sortPre pre cs)

/-- The `applyOrderByClause` helper of `lib/excel/sqlite.ts`. -/
def applyOrderByClause (data : List Row) (orderClause : Chars) : List Row :=
  sortPre (fun a b => cmpRows (parseOrderConfigs orderClause) a b ≤ 0) data

/-- Result record of the query engine (`{ success, data?, error? }`). -/
structure SqlResult where
  success : Bool
  data : Option (List Row)
  error : Option Chars
deriving DecidableEq

def sqlErr (msg : Chars) : SqlResult := ⟨false, none, some msg⟩

def aposS : Chars := [aposChar]

/-- The `executeSimpleSqlQuery` parser-executor of `lib/excel/sqlite.ts`. -/
def executeSimpleSqlQuery (query : Chars) (data : TableData)
    (allowedTables : List Chars) (limit : Nat) : SqlResult :=
  let lowerQuery := trimChars (lowerStr query)
  if !(startsWithLit (str ("select ")) lowerQuery) then
    sqlErr (str ("Only SELECT queries are supported"))
  else
    match findFromName lowerQuery with
    | none => sqlErr (str ("No FROM clause found"))
    | some rawName =>
      let tableName := rawName.filter (fun c => c ≠ '"')
      if !(allowedTables.contains tableName) then
        sqlErr (str ("Table ") ++ aposS ++ tableName ++ aposS ++ str (" not allowed"))
      else
        match assocFind tableName data with
        | none =>
          sqlErr (str ("Table ") ++ aposS ++ tableName ++ aposS ++ str (" not found"))
        | some tableData =>
          let r1 := match findWhereClause lowerQuery with
            | some wc => applyWhereClause tableData wc
            | none => tableData
          let r2 := match findOrderClause lowerQuery with
            | some oc => applyOrderByClause r1 oc
            | none => r1
          let actualLimit := match findLimitN lowerQuery with
            | some n => n
            | none => limit
          ⟨true, some (r2.take actualLimit), none⟩

/-- The row count the engine can return: the explicit LIMIT if the query has
one, otherwise the caller-provided limit. -/
def effectiveLimit (query : Chars) (limit : Nat) : Nat :=
  match findLimitN (trimChars (lowerStr query)) with
  | some n => n
  | none => limit

def forbiddenKeywords : List Chars :=
  [str ("update"), str ("delete"), str ("insert"),
   str ("drop"), str ("create"), str ("alter")]

/-- The `validators.isValidSqlQuery` check of `lib/excel/utils.ts`:
`trimmed.startsWith('select ') && !trimmed.includes(';') &&
!/(update|delete|insert|drop|create|alter)/.test(trimmed)`. -/
def isValidSqlQuery (query : Chars) : Bool :=
  let trimmed := lowerStr (trimChars query)
  startsWithLit (str ("select ")) trimmed &&
  !(containsSub (str (";")) trimmed) &&
  !(forbiddenKeywords.any (fun kw => containsSub kw trimmed))

/-- Outcome of `executeSqlQuery` together with whether the data file was
actually loaded (`readFileSync` reached). -/
structure GatewayResult where
  res : SqlResult
  storeRead : Bool
deriving DecidableEq

/-- The `executeSqlQuery` entry point of `lib/excel/sqlite.ts`.  The data file
on disk is modelled as `Option TableData` (`none` when `fs.existsSync` fails);
the validator runs before any file access. -/
def executeSqlQuery (query : Chars) (dbData : Option TableData)
    (allowedTables : List Chars) (limit : Nat) : GatewayResult :=
  if !(isValidSqlQuery query) then
    ⟨sqlErr (str ("Invalid SQL query")), false⟩
  else
    match dbData with
    | none => ⟨sqlErr (str ("Database file not found")), false⟩
    | some data => ⟨executeSimpleSqlQuery query data allowedTables limit, true⟩

/-- Collapse runs of underscores to a single underscore
(`replace(/_+/g, '_')`), keeping the last member of each run. -/
def collapseUnd : Chars → Chars
  | [] => []
  | [c] => [c]
  | c :: d :: rest =>
    if c = '_' && d = '_' then collapseUnd (d :: rest)
    else c :: collapseUnd (d :: rest)

/-- Drop a single leading underscore (`replace(/^_|_$/g, '')`, first half). -/
def stripLeadUnd : Chars → Chars
  | '_' :: r => r
  | l => l

/-- The `transformers.normalizeTableName` pipeline of `lib/excel/utils.ts`. -/
def normalizeTableName (name : Chars) : Chars :=
  if name.isEmpty || (trimChars name).isEmpty then str ("table_1")
  else
    let s1 := lowerStr (trimChars name)
    let s2 := s1.map (fun c => if isLowerAlnum c then c else '_')
    let s3 := match s2 with
      | c :: _ => if c.isDigit then '_' :: s2 else s2
      | [] => s2
    let s4 := collapseUnd s3
    let s5 := (stripLeadUnd ((stripLeadUnd s4).reverse)).reverse
    s5.take 63

/-- The normalized-identifier invariant the specification states for table
names: non-empty, only `[a-z0-9_]`, at most 63 characters, and not starting
with a digit. -/
def isNormalizedIdent (s : Chars) : Bool :=
  !(s.isEmpty) && s.all isLowerAlnum && s.length ≤ 63 &&
  (match s.head? with
   | some c => !(c.isDigit)
   | none => true)

/-- One step of the plan the planning oracle returns
(`{ approach, reasoning, ... }`). -/
structure PlanStep where
  approach : Chars
  reasoning : Option Chars
deriving DecidableEq

/-- The parsed plan object (`{ plan: [...], maxIterations }`).  A JSON payload
whose shape breaks the subsequent field accesses is folded into the
exception path of `decideDataSource`. -/
structure PlanObj where
  plan : List PlanStep
  maxIterations : Option Nat
deriving DecidableEq

/-- A JS value stored under `metadata.plan`: either an array of plan steps or
the whole parsed plan object.  Only an array has a numeric `.length`; on the
object the access yields `undefined`. -/
inductive PlanVal where
  | arr (steps : List PlanStep)
  | obj (p : PlanObj)
deriving DecidableEq

/-- The ad-hoc `metadata` objects `decideDataSource` attaches to sources. -/
structure SourceMeta where
  plan : Option PlanVal
  maxIterations : Option Nat
  iteration : Option Nat
deriving DecidableEq

structure DataSource where
  type : Chars
  confidence : ℚ
  reasoning : Chars
  metadata : Option SourceMeta
deriving DecidableEq

structure AgentDecision where
  selectedSource : DataSource
  alternativeSources : List DataSource
  context : Chars
  mode : Chars
deriving DecidableEq

/-- The JS `||` default on a string-valued optional field: `undefined` and the
empty string both fall back. -/
def jsOrStr (o : Option Chars) (d : Chars) : Chars :=
  match o with
  | some s => if s.isEmpty then d else s
  | none => d

/-- `plan.plan.slice(1).map((p, i) => ({... confidence: 0.6 - i * 0.1 ...}))`.
The confidence expression is modelled in exact rationals, while the program
evaluates it in IEEE doubles, where `0.6 - 6 * 0.1` is already `-(2 ^ 53)⁻¹`
rather than zero; the rational value is therefore guaranteed to agree with the
double in sign only away from `i = 6`, and no theorem below asserts the sign
(or an interval membership) of the confidence at `i = 6`. -/
def altSourcesFrom : List PlanStep → Nat → List DataSource
  | [], _ => []
  | s :: rest, i =>
    ⟨(if s.approach = str ("sql") then str ("excel-sql") else str ("vector-search")),
     3 / 5 - (i : ℚ) / 10,
     jsOrStr s.reasoning (str ("Alternative approach")),
     some ⟨none, none, some (i + 2)⟩⟩ :: altSourcesFrom rest (i + 1)

/-- The fixed plan substituted when no JSON object can be parsed out of the
planning oracle response. -/
def fallbackPlanObj : PlanObj :=
  ⟨[⟨str ("sql"), some (str ("Fallback to SQL for structured data"))⟩,
    ⟨str ("vector"), some (str ("Fallback to vector for context"))⟩],
   some 2⟩

/-- Decision construction from a plan object in `decideDataSource`; note that
`metadata.plan` receives the whole plan object, not its step array. -/
def buildDecisionFromPlan (p : PlanObj) : AgentDecision :=
  let selType :=
    if (p.plan.head?.map PlanStep.approach) = some (str ("sql")) then str ("excel-sql")
    else str ("vector-search")
  let selected : DataSource :=
    ⟨selType, 4 / 5,
     jsOrStr (p.plan.head?.bind PlanStep.reasoning) (str ("Default reasoning")),
     some ⟨some (.obj p), p.maxIterations, none⟩⟩
  ⟨selected, altSourcesFrom (p.plan.drop 1) 0,
   str ("Iterative plan with ") ++ (toString p.plan.length).data ++ str (" approaches"),
   if p.plan.length > 1 then str ("iterative")
   else if selType = str ("excel-sql") then str ("sql")
   else str ("vector")⟩

/-- The hard-coded decision returned when planning throws. -/
def fallbackDecision : AgentDecision :=
  ⟨⟨str ("vector-search"), 1 / 2, str ("Fallback to vector search due to error"), none⟩,
   [], str ("Fallback mode"), str ("vector")⟩

/-- The `decideDataSource` planner of the agent module.  Its environment is
collapsed into one argument: `.error` is any exception (oracle unreachable,
empty response, a parsed object whose shape breaks the field accesses),
`.ok none` is a response with no parseable JSON object, and `.ok (some p)` is
a successfully parsed plan object. -/
def decideDataSource (outcome : Except Unit (Option PlanObj)) : AgentDecision :=
  match outcome with
  | .error _ => fallbackDecision
  | .ok parsed => buildDecisionFromPlan (parsed.getD fallbackPlanObj)

/-- Outcome of one `executeIteration` call.  The oracle- and
retrieval-dependent parts are the environment of the loop; the
`shouldTryAlternative` field is the flattened
`metadata?.review?.shouldTryAlternative` access. -/
structure IterationResult where
  approach : Chars
  result : Chars
  confidence : ℚ
  reasoning : Chars
  shouldTryAlternative : Option Bool
deriving DecidableEq

structure SynthesisObj where
  finalAnswer : Chars
  confidence : ℚ
  reasoning : Chars
deriving DecidableEq

structure IterativeAgentResult where
  finalAnswer : Chars
  iterations : List IterationResult
  totalIterations : Nat
  confidence : ℚ
  reasoning : Chars
deriving DecidableEq

/-- The inline default plan of `executeIterativeAgent`
(`decision.selectedSource.metadata?.plan || [...]`). -/
def defaultPlanSteps : List PlanStep :=
  [⟨str ("sql"), some (str ("Primary approach"))⟩,
   ⟨str ("vector"), some (str ("Secondary approach"))⟩]

/-- `decision.selectedSource.metadata?.maxIterations || 3`: both `undefined`
and `0` are falsy and fall back to 3. -/
def effectiveMaxIterations : Option Nat → Nat
  | some n => if n = 0 then 3 else n
  | none => 3

/-- The iteration loop: run `exec` for successive indices, stop after (and
including) the first result whose review set `shouldTryAlternative` to
`false`; the second argument is the remaining bound. -/
def runIterations (exec : Nat → IterationResult) : Nat → Nat → List IterationResult
  | _, 0 => []
  | i, fuel + 1 =>
    let r := exec i
    if r.shouldTryAlternative = some false then [r]
    else r :: runIterations exec (i + 1) fuel

/-- `iterations.reduce((sum, i) => sum + i.confidence, 0)`. -/
def confSum (l : List ℚ) : ℚ := l.foldl (fun a c => a + c) 0

/-- The `executeIterativeAgent` loop of the agent module.  `exec` is the
environment supplying the outcome of `executeIteration` per index, and
`synthParsed` the parsed synthesis-oracle response (`none` when no JSON object
can be extracted or parsing throws).  The loop bound is
`Math.min(plan.length, maxIterations)`: on an array-valued `metadata.plan`
this is the genuine minimum, but on the object-valued `metadata.plan` that
`decideDataSource` stores, `.length` is `undefined`, `Math.min` yields `NaN`,
and the guard `i < NaN` is false — the loop body never runs, modelled by a
zero bound. -/
def executeIterativeAgent (exec : Nat → IterationResult)
    (synthParsed : Option SynthesisObj) (decision : AgentDecision) :
    IterativeAgentResult :=
  let maxIter := effectiveMaxIterations
    (decision.selectedSource.metadata.bind SourceMeta.maxIterations)
  let planV := (decision.selectedSource.metadata.bind SourceMeta.plan).getD
    (.arr defaultPlanSteps)
  let bound := match planV with
    | .arr steps => min steps.length maxIter
    | .obj _ => 0
  let iterations := runIterations exec 0 bound
  let synthesis := match synthParsed with
    | some s => s
    | none =>
      ⟨List.intercalate (str ("\n\n")) (iterations.map IterationResult.result),
       confSum (iterations.map IterationResult.confidence) / (iterations.length : ℚ),
       str ("Combined all results")⟩
  ⟨synthesis.finalAnswer, iterations, iterations.length, synthesis.confidence,
   synthesis.reasoning⟩

/-- A point returned by the vector search (payload text plus score). -/
structure ChunkPt where
  text : Chars
  score : ℚ
deriving DecidableEq

/-- A ranked chunk with its estimated token count. -/
structure Chunk where
  text : Chars
  score : ℚ
  tokens : Nat
deriving DecidableEq

/-- Token-count and sort phase of `queryProjectChunks`:
`.map(point => ({text, score, tokens})).sort((a, b) => b.score - a.score)`.
The token estimator lives in `lib/ai/utils` outside the embedded sources and
is passed as a function. -/
def sortedChunks (tokenCount : Chars → Nat) (searchResult : List ChunkPt) :
    List Chunk :=
  sortPre (fun a b => decide (b.score ≤ a.score))
    (searchResult.map (fun p => ⟨p.text, p.score, tokenCount p.text⟩))

/-- Greedy budget phase: accept chunks in order while the running token sum
stays within the budget, breaking at the first chunk that would exceed it. -/
def selectChunksAux (budget : Nat) : List Chunk → Nat → List Chunk
  | [], _ => []
  | c :: rest, acc =>
    if acc + c.tokens > budget then []
    else c :: selectChunksAux budget rest (acc + c.tokens)

/-- Sort and budget pipeline with the budget as a parameter. -/
def rankChunks (tokenCount : Chars → Nat) (budget : Nat)
    (searchResult : List ChunkPt) : List Chunk :=
  selectChunksAux budget (sortedChunks tokenCount searchResult) 0

/-- The `queryProjectChunks` post-search pipeline of the vector module, whose
configured budget constant is 27000. -/
def queryProjectChunks (tokenCount : Chars → Nat) (searchResult : List ChunkPt) :
    List Chunk :=
  rankChunks tokenCount 27000 searchResult

def sumTokens (l : List Chunk) : Nat := (l.map Chunk.tokens).sum

/-- Occurrence of a pattern as a contiguous substring. -/
def occursIn (pat l : Chars) : Prop := ∃ x y, l = x ++ pat ++ y

/-- What one AND-separated condition requires of a row: when the condition
parses to a column and value, the row must hold that column with a value equal
to the literal under case-insensitive comparison; an unparseable condition
requires nothing. -/
def condSpec (row : Row) (cond : Chars) : Prop :=
  ∀ col v, parseCondition cond = some (col, v) →
    ∃ rv, assocFind col row = some rv ∧ lowerStr rv = lowerStr v

/-- A parsed oracle plan with two steps and an explicit iteration bound, the
shape the planner produces for an iterative question. -/
def iterPlanTwoSteps : PlanObj :=
  ⟨[⟨str ("sql"), some (str ("numbers first"))⟩,
    ⟨str ("vector"), some (str ("context second"))⟩],
   some 3⟩

/-- A parsed oracle plan with nine steps. -/
def planNineSteps : PlanObj :=
  ⟨List.replicate 9 ⟨str ("sql"), none⟩, some 3⟩

/-- A concrete iteration environment whose reviews never ask to stop. -/
def constExec : Nat → IterationResult :=
  fun _ => ⟨str ("sql"), str ("result"), 7 / 10, str ("ok"), none⟩


/-! ### Theorems -/

/-- C6: the table-name normalizer violates the stated invariant.  The sheet
name `"0"` normalizes to `"0"` (the digit-guard underscore added by the
`^[0-9]` replacement is removed again by the leading-underscore strip), and
the sheet name `"!"` normalizes to the empty string. -/
theorem normalizeTableName_breaks_invariant :
    normalizeTableName (str ("0")) = str ("0") ∧
    normalizeTableName (str ("!")) = [] ∧
    isNormalizedIdent (normalizeTableName (str ("0"))) = false ∧
    isNormalizedIdent (normalizeTableName (str ("!"))) = false := by
  decide

/-- C1: a planner-produced iterative decision executes zero iterations of the
review loop, because `metadata.plan` holds the parsed plan object rather than
its step array, so the loop bound `Math.min(plan.length, maxIterations)` is
`NaN`.  The claim expects `min(2, 3) = 2` iterations here, and at least one. -/
theorem executeIterativeAgent_planner_decision_zero_iterations :
    (decideDataSource (.ok (some iterPlanTwoSteps))).mode = str ("iterative") ∧
    (executeIterativeAgent constExec none
      (decideDataSource (.ok (some iterPlanTwoSteps)))).totalIterations = 0 ∧
    (executeIterativeAgent constExec none
      (decideDataSource (.ok (some iterPlanTwoSteps)))).iterations = [] := by
  decide

/-- C2 counterexample: with a caller ceiling of 100, a query whose explicit
LIMIT is 9999 returns all 101 rows of the table — the explicit LIMIT is used
as-is and is not clamped by the caller-provided limit. -/
theorem executeSimpleSqlQuery_limit_not_clamped :
    ((executeSimpleSqlQuery (str ("select * from t limit 9999"))
        [(str ("t"), List.replicate 101 ([] : Row))] [str ("t")] 100).data.getD
      []).length = 101 ∧ 100 < 101 := by
  constructor
  · rfl
  · decide

/-- C5 counterexample: the query `" select * from t"` does not start with
`"select "` (case-insensitively), yet it is not rejected — the validator trims
first — and the data file is loaded. -/
theorem executeSqlQuery_leading_space_not_rejected :
    startsWithLit (str ("select ")) (lowerStr (str (" select * from t"))) = false ∧
    executeSqlQuery (str (" select * from t")) (some [(str ("t"), [([] : Row)])])
      [str ("t")] 100 = ⟨⟨true, some [([] : Row)], none⟩, true⟩ := by
  decide

/-- C7 counterexample: for a nine-step plan the eighth alternative source is
assigned confidence `0.6 - 7 * 0.1 = -0.1`; there is no floor at zero. -/
theorem decideDataSource_alt_confidence_negative :
    ((decideDataSource (.ok (some planNineSteps))).alternativeSources.map
      DataSource.confidence).getD 7 0 = -(1 / 10) ∧ (-(1 / 10) : ℚ) < 0 := by
  have h : ((decideDataSource (.ok (some planNineSteps))).alternativeSources.map
      DataSource.confidence).getD 7 0 = 3 / 5 - ((7 : Nat) : ℚ) / 10 := rfl
  rw [h]
  norm_num

/-- C2 (amended): the engine returns at most the explicit LIMIT of the query
when one is present, and at most the caller-provided limit otherwise; the
caller-provided ceiling does not bound an explicit LIMIT. -/
theorem executeSimpleSqlQuery_row_bound (q : Chars) (data : TableData)
    (allowed : List Chars) (lim : Nat) (rows : List Row)
    (h : (executeSimpleSqlQuery q data allowed lim).data = some rows) :
    rows.length ≤ effectiveLimit q lim := by
  unfold effectiveLimit
  simp only [executeSimpleSqlQuery] at h
  rcases hfl : findLimitN (trimChars (lowerStr q)) with _ | n
  all_goals simp only [hfl] at h ⊢
  all_goals split at h
  any_goals simp [sqlErr] at h
  all_goals split at h
  any_goals simp [sqlErr] at h
  all_goals split at h
  any_goals simp [sqlErr] at h
  all_goals split at h
  any_goals simp [sqlErr] at h
  all_goals subst h
  all_goals exact List.length_take_le _ _

/-- Witness for the C2 row bound at a concrete query without an explicit
LIMIT. -/
theorem executeSimpleSqlQuery_row_bound_witness :
    ([([] : Row)]).length ≤ effectiveLimit (str ("select * from t")) 5 :=
  executeSimpleSqlQuery_row_bound (str ("select * from t"))
    [(str ("t"), [([] : Row)])] [str ("t")] 5 [([] : Row)] (by decide)

/-- C5 (amended): a query whose trimmed text does not start with `"select "`
(case-insensitively) is rejected as an invalid query before the data file is
touched. -/
theorem executeSqlQuery_rejects_non_select (q : Chars) (db : Option TableData)
    (allowed : List Chars) (lim : Nat)
    (h : startsWithLit (str ("select ")) (lowerStr (trimChars q)) = false) :
    executeSqlQuery q db allowed lim = ⟨sqlErr (str ("Invalid SQL query")), false⟩ := by
  have hv : isValidSqlQuery q = false := by
    simp only [isValidSqlQuery, h, Bool.false_and]
  simp [executeSqlQuery, hv]

/-- Witness for the non-SELECT rejection at a concrete query. -/
theorem executeSqlQuery_rejects_non_select_witness :
    executeSqlQuery (str ("show tables")) (some []) [] 100
      = ⟨sqlErr (str ("Invalid SQL query")), false⟩ :=
  executeSqlQuery_rejects_non_select (str ("show tables")) (some []) [] 100 (by decide)

/-- C4: when the planning-oracle response contains no parseable JSON object,
the decision is built from the fixed two-step fallback plan (`sql` then
`vector`, `maxIterations = 2`, mode `iterative`), and for every oracle
outcome — parsed, unparseable, or thrown — the mode of the decision is one of
`sql`, `vector`, `hybrid`, `iterative`. -/
theorem decideDataSource_parse_fallback_and_mode :
    decideDataSource (.ok none) =
      ⟨⟨str ("excel-sql"), 4 / 5, str ("Fallback to SQL for structured data"),
        some ⟨some (.obj fallbackPlanObj), some 2, none⟩⟩,
       [⟨str ("vector-search"), 3 / 5, str ("Fallback to vector for context"),
         some ⟨none, none, some 2⟩⟩],
       str ("Iterative plan with 2 approaches"), str ("iterative")⟩ ∧
    ∀ o, (decideDataSource o).mode ∈
      [str ("sql"), str ("vector"), str ("hybrid"), str ("iterative")] := by
  constructor
  · simp only [decideDataSource, Option.getD, buildDecisionFromPlan,
      fallbackPlanObj, altSourcesFrom, jsOrStr]
    norm_num
    decide
  · intro o
    rcases o with u | po
    · cases u
      decide
    · show (buildDecisionFromPlan (po.getD fallbackPlanObj)).mode ∈ _
      simp only [buildDecisionFromPlan]
      split
      · decide
      · split
        · decide
        · decide

/-- Boolean condition evaluation agrees with the specification-side reading of
one condition. -/
theorem condHolds_iff_condSpec (row : Row) (cond : Chars) :
    condHolds row cond = true ↔ condSpec row cond := by
  unfold condHolds condSpec
  rcases hp : parseCondition cond with _ | ⟨col, v⟩
  · dsimp only
    simp
  · dsimp only
    rcases ha : assocFind col row with _ | rv
    · dsimp only
      simp only [Bool.false_eq_true, false_iff]
      intro hall
      rcases hall col v rfl with ⟨rv, hrv, _⟩
      simp [ha] at hrv
    · dsimp only
      simp only [beq_iff_eq]
      constructor
      · intro heq col2 v2 hin
        rw [Option.some.injEq, Prod.mk.injEq] at hin
        rcases hin with ⟨rfl, rfl⟩
        exact ⟨rv, ha, heq⟩
      · intro hall
        rcases hall col v rfl with ⟨rv2, hrv2, heq⟩
        rw [ha, Option.some.injEq] at hrv2
        subst hrv2
        exact heq

/-- C8: a row survives the WHERE clause exactly when every AND-separated
condition that parses as a column/value equality is satisfied by the row under
case-insensitive comparison; conditions that do not parse impose nothing (the
row is included), and filtering is total — never a hard failure. -/
theorem applyWhereClause_characterization (data : List Row) (clause : Chars)
    (row : Row) :
    row ∈ applyWhereClause data clause ↔
      row ∈ data ∧ ∀ cond ∈ splitAnd clause, condSpec row cond := by
  unfold applyWhereClause
  rw [List.mem_filter]
  simp only [List.all_eq_true, condHolds_iff_condSpec]

/-- C9: when the synthesis-oracle response cannot be parsed, the final answer
is exactly the iteration results joined by a blank line in execution order,
and the final confidence is the arithmetic mean of the iteration confidences
(stated both as the quotient the code computes and, for a non-empty iteration
list, as the defining property of the mean). -/
theorem executeIterativeAgent_synthesis_fallback (exec : Nat → IterationResult)
    (decision : AgentDecision) :
    (executeIterativeAgent exec none decision).finalAnswer =
      List.intercalate (str ("\n\n"))
        ((executeIterativeAgent exec none decision).iterations.map
          IterationResult.result) ∧
    (executeIterativeAgent exec none decision).confidence =
      confSum ((executeIterativeAgent exec none decision).iterations.map
          IterationResult.confidence) /
        ((executeIterativeAgent exec none decision).iterations.length : ℚ) ∧
    ((executeIterativeAgent exec none decision).iterations ≠ [] →
      ((executeIterativeAgent exec none decision).iterations.length : ℚ) *
          (executeIterativeAgent exec none decision).confidence =
        confSum ((executeIterativeAgent exec none decision).iterations.map
          IterationResult.confidence)) := by
  refine ⟨rfl, rfl, ?_⟩
  intro hne
  have hlen : (((executeIterativeAgent exec none decision).iterations.length : ℚ)) ≠ 0 := by
    have h0 : (executeIterativeAgent exec none decision).iterations.length ≠ 0 := by
      simpa [List.length_eq_zero] using hne
    exact_mod_cast h0
  have hc : (executeIterativeAgent exec none decision).confidence =
      confSum ((executeIterativeAgent exec none decision).iterations.map
          IterationResult.confidence) /
        ((executeIterativeAgent exec none decision).iterations.length : ℚ) := rfl
  rw [hc]
  field_simp

/-- Witness for the synthesis-fallback mean property on a concrete two-step
run. -/
theorem executeIterativeAgent_synthesis_fallback_witness :
    (((executeIterativeAgent constExec none fallbackDecision).iterations.length : ℚ)) *
        (executeIterativeAgent constExec none fallbackDecision).confidence =
      confSum ((executeIterativeAgent constExec none fallbackDecision).iterations.map
        IterationResult.confidence) :=
  (executeIterativeAgent_synthesis_fallback constExec fallbackDecision).2.2 (by decide)

theorem altSourcesFrom_length (steps : List PlanStep) (i : Nat) :
    (altSourcesFrom steps i).length = steps.length := by
  induction steps generalizing i with
  | nil => rfl
  | cons s rest ih => simp [altSourcesFrom, ih]

theorem altSourcesFrom_conf (steps : List PlanStep) (i k : Nat)
    (hk : k < steps.length) :
    ((altSourcesFrom steps i).map DataSource.confidence).getD k 0 =
      3 / 5 - ((i + k : Nat) : ℚ) / 10 := by
  induction steps generalizing i k with
  | nil => simp at hk
  | cons s rest ih =>
    cases k with
    | zero => simp [altSourcesFrom]
    | succ k =>
      have hk2 : k < rest.length := by
        simpa using Nat.lt_of_succ_lt_succ hk
      have step : ((altSourcesFrom (s :: rest) i).map DataSource.confidence).getD (k + 1) 0
          = ((altSourcesFrom rest (i + 1)).map DataSource.confidence).getD k 0 := by
        simp [altSourcesFrom]
      rw [step, ih (i + 1) k hk2]
      have harith : i + 1 + k = i + (k + 1) := by omega
      rw [harith]

/-- C7 (amended): in every decision built from a parsed plan the selected
source has confidence exactly 0.8 and alternative `k` has confidence
`0.6 - k * 0.1`, which is strictly decreasing; there is no floor at 0, so the
claimed interval [0, 1] is not maintained: from the eighth alternative on the
confidence is negative (and in the program's double arithmetic the seventh,
`0.6 - 6 * 0.1`, is already below zero, which the exact-rational model leaves
outside its scope). -/
theorem decideDataSource_confidence_formula (p : PlanObj) :
    (decideDataSource (.ok (some p))).selectedSource.confidence = 4 / 5 ∧
    (∀ k, k < (decideDataSource (.ok (some p))).alternativeSources.length →
      ((decideDataSource (.ok (some p))).alternativeSources.map
        DataSource.confidence).getD k 0 = 3 / 5 - (k : ℚ) / 10) ∧
    (∀ k, k + 1 < (decideDataSource (.ok (some p))).alternativeSources.length →
      ((decideDataSource (.ok (some p))).alternativeSources.map
          DataSource.confidence).getD (k + 1) 0 <
        ((decideDataSource (.ok (some p))).alternativeSources.map
          DataSource.confidence).getD k 0) ∧
    (∀ k, 7 ≤ k → k < (decideDataSource (.ok (some p))).alternativeSources.length →
      ((decideDataSource (.ok (some p))).alternativeSources.map
        DataSource.confidence).getD k 0 < 0) := by
  have halts : (decideDataSource (.ok (some p))).alternativeSources =
      altSourcesFrom (p.plan.drop 1) 0 := rfl
  have hconf : ∀ k, k < (decideDataSource (.ok (some p))).alternativeSources.length →
      ((decideDataSource (.ok (some p))).alternativeSources.map
        DataSource.confidence).getD k 0 = 3 / 5 - (k : ℚ) / 10 := by
    intro k hk
    rw [halts] at hk ⊢
    rw [altSourcesFrom_length] at hk
    rw [altSourcesFrom_conf (p.plan.drop 1) 0 k hk]
    norm_num
  refine ⟨rfl, hconf, ?_, ?_⟩
  · intro k hk
    have h1 := hconf k (by omega)
    have h2 := hconf (k + 1) hk
    rw [h1, h2]
    have hcast : ((k + 1 : Nat) : ℚ) = (k : ℚ) + 1 := by push_cast; ring
    rw [hcast]
    have hkq : (0 : ℚ) ≤ (k : ℚ) := Nat.cast_nonneg k
    linarith
  · intro k hk7 hk
    have h1 := hconf k hk
    rw [h1]
    have hk7q : (7 : ℚ) ≤ (k : ℚ) := by exact_mod_cast hk7
    linarith

/-- Witness for the confidence formula on the fallback plan at index 0. -/
theorem decideDataSource_confidence_formula_witness :
    ((decideDataSource (.ok (some fallbackPlanObj))).alternativeSources.map
      DataSource.confidence).getD 0 0 = 3 / 5 - ((0 : Nat) : ℚ) / 10 :=
  (decideDataSource_confidence_formula fallbackPlanObj).2.1 0 (by decide)

theorem insertPre_chain (pre : α → α → Bool)
    (htot : ∀ a b, pre a b = true ∨ pre b a = true) (c : α) (l : List α)
    (h : List.Chain' (fun a b => pre a b = true) l) :
    List.Chain' (fun a b => pre a b = true) (insertPre pre c l) := by
  induction l with
  | nil => simp [insertPre]
  | cons d ds ih =>
    by_cases hcd : pre c d = true
    · simp only [insertPre, if_pos hcd]
      rw [List.chain'_cons]
      exact ⟨hcd, h⟩
    · have hdc : pre d c = true := (htot c d).resolve_left hcd
      simp only [insertPre, if_neg hcd]
      have hins := ih h.tail
      cases ds with
      | nil =>
        simp only [insertPre]
        rw [List.chain'_cons]
        exact ⟨hdc, List.chain'_singleton c⟩
      | cons e es =>
        by_cases hce : pre c e = true
        · simp only [insertPre, if_pos hce]
          rw [List.chain'_cons]
          refine ⟨hdc, ?_⟩
          rw [List.chain'_cons]
          exact ⟨hce, h.tail⟩
        · simp only [insertPre, if_neg hce]
          rw [List.chain'_cons]
          refine ⟨(List.chain'_cons.mp h).1, ?_⟩
          simpa [insertPre, if_neg hce] using hins

theorem sortPre_chain (pre : α → α → Bool)
    (htot : ∀ a b, pre a b = true ∨ pre b a = true) (l : List α) :
    List.Chain' (fun a b => pre a b = true) (sortPre pre l) := by
  induction l with
  | nil => simp [sortPre]
  | cons c cs ih => exact insertPre_chain pre htot c _ ih

theorem selectChunksAux_take (budget : Nat) (l : List Chunk) (acc : Nat)
    (hacc : acc ≤ budget) :
    ∃ k, selectChunksAux budget l acc = l.take k ∧
      acc + sumTokens (l.take k) ≤ budget ∧
      ∀ c, (l.drop k).head? = some c →
        budget < acc + sumTokens (l.take k) + c.tokens := by
  induction l generalizing acc with
  | nil =>
    refine ⟨0, by simp [selectChunksAux], ?_, by simp⟩
    simpa [sumTokens] using hacc
  | cons c rest ih =>
    by_cases hover : acc + c.tokens > budget
    · refine ⟨0, ?_, ?_, ?_⟩
      · simp [selectChunksAux, hover]
      · simpa [sumTokens] using hacc
      · intro d hd
        simp only [List.drop_zero, List.head?_cons, Option.some.injEq] at hd
        subst hd
        simp only [List.take_zero, sumTokens, List.map_nil, List.sum_nil]
        omega
    · push_neg at hover
      rcases ih (acc + c.tokens) hover with ⟨k, hres, hsum, hnext⟩
      refine ⟨k + 1, ?_, ?_, ?_⟩
      · have hcond : ¬ (acc + c.tokens > budget) := by omega
        simp [selectChunksAux, hcond, List.take_succ_cons, hres]
      · simp only [List.take_succ_cons, sumTokens, List.map_cons, List.sum_cons]
        simp only [sumTokens] at hsum
        omega
      · intro d hd
        simp only [List.drop_succ_cons] at hd
        have := hnext d hd
        simp only [List.take_succ_cons, sumTokens, List.map_cons, List.sum_cons]
        simp only [sumTokens] at this
        omega

/-- C3: the vector ranker output is sorted by descending score and is exactly
the greedy prefix of the sorted candidates whose token sum stays within the
configured budget of 27000, stopping at the first chunk that would exceed it;
and on chunks with token counts `[10000, 10000, 10000]` a budget of 25000
keeps exactly 2 chunks. -/
theorem queryProjectChunks_sorted_and_budgeted (tc : Chars → Nat)
    (sr : List ChunkPt) :
    List.Chain' (fun a b : Chunk => b.score ≤ a.score) (queryProjectChunks tc sr) ∧
    (∃ k, queryProjectChunks tc sr = (sortedChunks tc sr).take k ∧
      sumTokens ((sortedChunks tc sr).take k) ≤ 27000 ∧
      ∀ c, ((sortedChunks tc sr).drop k).head? = some c →
        27000 < sumTokens ((sortedChunks tc sr).take k) + c.tokens) ∧
    (rankChunks (fun _ => 10000) 25000
      [⟨str ("a"), 9⟩, ⟨str ("b"), 8⟩, ⟨str ("c"), 7⟩]).length = 2 := by
  have htot : ∀ a b : Chunk, decide (b.score ≤ a.score) = true ∨
      decide (a.score ≤ b.score) = true := by
    intro a b
    rcases le_total b.score a.score with h | h
    · exact Or.inl (decide_eq_true h)
    · exact Or.inr (decide_eq_true h)
  have hsorted : List.Chain' (fun a b : Chunk => decide (b.score ≤ a.score) = true)
      (sortedChunks tc sr) := sortPre_chain _ htot _
  rcases selectChunksAux_take 27000 (sortedChunks tc sr) 0 (by omega) with
    ⟨k, hres, hsum, hnext⟩
  have hq : queryProjectChunks tc sr = (sortedChunks tc sr).take k := hres
  refine ⟨?_, ⟨k, hq, by simpa using hsum, fun c hc => by simpa using hnext c hc⟩, ?_⟩
  · rw [hq]
    exact ((hsorted.take k).imp (fun a b hab => of_decide_eq_true hab))
  · decide

theorem litAt_isSome_iff (pat l : Chars) :
    (litAt pat l).isSome = true ↔ ∃ r, l = pat ++ r := by
  induction pat generalizing l with
  | nil => simp [litAt]
  | cons p ps ih =>
    cases l with
    | nil => simp [litAt]
    | cons c cs =>
      by_cases hc : c = p
      · rw [show litAt (p :: ps) (c :: cs) = litAt ps cs from by simp [litAt, hc]]
        rw [ih]
        subst hc
        constructor
        · rintro ⟨r, rfl⟩
          exact ⟨r, rfl⟩
        · rintro ⟨r, hr⟩
          simp only [List.cons_append, List.cons.injEq] at hr
          exact ⟨r, hr.2⟩
      · rw [show litAt (p :: ps) (c :: cs) = none from by simp [litAt, hc]]
        simp only [Option.isSome_none, Bool.false_eq_true, false_iff]
        rintro ⟨r, hr⟩
        simp only [List.cons_append, List.cons.injEq] at hr
        exact hc hr.1

theorem containsSub_iff_occursIn (pat l : Chars) :
    containsSub pat l = true ↔ occursIn pat l := by
  induction l with
  | nil =>
    simp only [containsSub, litAt_isSome_iff, occursIn]
    constructor
    · rintro ⟨r, hr⟩
      exact ⟨[], r, by simpa using hr⟩
    · rintro ⟨x, y, hxy⟩
      have h1 := List.append_eq_nil.mp hxy.symm
      have h2 := List.append_eq_nil.mp h1.1
      exact ⟨[], by simp [h2.2]⟩
  | cons c cs ih =>
    simp only [containsSub, Bool.or_eq_true, litAt_isSome_iff, ih, occursIn]
    constructor
    · rintro (⟨r, hr⟩ | ⟨x, y, hxy⟩)
      · exact ⟨[], r, by simpa using hr⟩
      · exact ⟨c :: x, y, by simp [hxy]⟩
    · rintro ⟨x, y, hxy⟩
      cases x with
      | nil =>
        left
        exact ⟨y, by simpa using hxy⟩
      | cons x0 xs =>
        right
        simp only [List.cons_append, List.cons.injEq] at hxy
        exact ⟨xs, y, hxy.2⟩

theorem occursIn_strip_left_ws (a m : Chars) (p : Char) (ps : Chars)
    (ha : ∀ c ∈ a, isWsChar c = true) (hp : isWsChar p = false)
    (h : occursIn (p :: ps) (a ++ m)) : occursIn (p :: ps) m := by
  induction a with
  | nil => simpa using h
  | cons w ws ih =>
    rcases h with ⟨x, y, hxy⟩
    cases x with
    | nil =>
      exfalso
      simp only [List.nil_append, List.cons_append, List.cons.injEq] at hxy
      rw [← hxy.1] at hp
      rw [ha w (by simp)] at hp
      cases hp
    | cons x0 xs =>
      apply ih (fun c hc => ha c (by simp [hc]))
      simp only [List.cons_append, List.cons.injEq] at hxy
      exact ⟨xs, y, hxy.2⟩

theorem occursIn_reverse (pat l : Chars) (h : occursIn pat l) :
    occursIn pat.reverse l.reverse := by
  rcases h with ⟨x, y, rfl⟩
  refine ⟨y.reverse, x.reverse, ?_⟩
  simp [List.reverse_append, List.append_assoc]

theorem occursIn_strip_right_ws (b m pat : Chars) (q0 : Char) (qs : Chars)
    (hb : ∀ c ∈ b, isWsChar c = true) (hrev : pat.reverse = q0 :: qs)
    (hq : isWsChar q0 = false) (h : occursIn pat (m ++ b)) : occursIn pat m := by
  have h1 := occursIn_reverse pat (m ++ b) h
  rw [List.reverse_append, hrev] at h1
  have h2 : occursIn (q0 :: qs) m.reverse := by
    apply occursIn_strip_left_ws b.reverse m.reverse q0 qs
      (fun c hc => hb c (List.mem_reverse.mp hc)) hq h1
  rw [← hrev] at h2
  have h3 := occursIn_reverse pat.reverse m.reverse h2
  simpa using h3

theorem lowerChar_ws_id (c : Char) (h : isWsChar c = true) : Char.toLower c = c := by
  simp only [isWsChar, Bool.or_eq_true, beq_iff_eq] at h
  rcases h with ((((rfl | rfl) | rfl) | rfl) | rfl) | rfl <;> decide

theorem lowerStr_ws_id (a : Chars) (ha : ∀ c ∈ a, isWsChar c = true) :
    lowerStr a = a := by
  induction a with
  | nil => rfl
  | cons c cs ih =>
    simp only [lowerStr, List.map_cons]
    rw [lowerChar_ws_id c (ha c (by simp)),
      show List.map Char.toLower cs = lowerStr cs from rfl,
      ih (fun d hd => ha d (by simp [hd]))]

theorem trimChars_decomp (l : Chars) :
    ∃ a b, l = a ++ trimChars l ++ b ∧ (∀ c ∈ a, isWsChar c = true) ∧
      ∀ c ∈ b, isWsChar c = true := by
  refine ⟨l.takeWhile isWsChar,
    (((l.dropWhile isWsChar).reverse.takeWhile isWsChar)).reverse, ?_, ?_, ?_⟩
  · unfold trimChars
    conv_lhs => rw [← List.takeWhile_append_dropWhile (p := isWsChar) (l := l)]
    rw [List.append_assoc]
    congr 1
    conv_lhs => rw [← List.reverse_reverse (l.dropWhile isWsChar),
      ← List.takeWhile_append_dropWhile (p := isWsChar)
        (l := (l.dropWhile isWsChar).reverse)]
    rw [List.reverse_append]
  · intro c hc
    exact List.mem_takeWhile_imp hc
  · intro c hc
    exact List.mem_takeWhile_imp (List.mem_reverse.mp hc)

theorem containsSub_lower_trim (kw l : Chars) (p : Char) (ps : Chars)
    (hshape : kw = p :: ps) (hp : isWsChar p = false) (q0 : Char) (qs : Chars)
    (hrev : kw.reverse = q0 :: qs) (hq : isWsChar q0 = false)
    (h : containsSub kw (lowerStr l) = true) :
    containsSub kw (lowerStr (trimChars l)) = true := by
  rcases trimChars_decomp l with ⟨a, b, hl, ha, hb⟩
  rw [containsSub_iff_occursIn] at h ⊢
  rw [hl] at h
  simp only [lowerStr, List.map_append] at h
  rw [show List.map Char.toLower a = a from lowerStr_ws_id a ha,
    show List.map Char.toLower b = b from lowerStr_ws_id b hb] at h
  have h2 : occursIn kw (List.map Char.toLower (trimChars l) ++ b) := by
    rw [hshape] at h ⊢
    exact occursIn_strip_left_ws a _ p ps ha hp (by simpa [List.append_assoc] using h)
  exact occursIn_strip_right_ws b _ kw q0 qs hb hrev hq h2

/-- C10: any query whose lowercased text contains one of the six mutating
keywords anywhere as a substring — including inside an identifier such as a
table named `created_orders` — is rejected as an invalid query before the
data file is touched, regardless of the tables it references. -/
theorem executeSqlQuery_rejects_forbidden_keyword_substrings
    (q : Chars) (db : Option TableData) (allowed : List Chars) (lim : Nat)
    (kw : Chars) (hkw : kw ∈ forbiddenKeywords)
    (hsub : containsSub kw (lowerStr q) = true) :
    executeSqlQuery q db allowed lim = ⟨sqlErr (str ("Invalid SQL query")), false⟩ := by
  have hsub2 : containsSub kw (lowerStr (trimChars q)) = true := by
    simp only [forbiddenKeywords, List.mem_cons, List.mem_singleton] at hkw
    rcases hkw with rfl | rfl | rfl | rfl | rfl | rfl | h
    · exact containsSub_lower_trim _ q _ _ rfl (by decide) _ _ rfl (by decide) hsub
    · exact containsSub_lower_trim _ q _ _ rfl (by decide) _ _ rfl (by decide) hsub
    · exact containsSub_lower_trim _ q _ _ rfl (by decide) _ _ rfl (by decide) hsub
    · exact containsSub_lower_trim _ q _ _ rfl (by decide) _ _ rfl (by decide) hsub
    · exact containsSub_lower_trim _ q _ _ rfl (by decide) _ _ rfl (by decide) hsub
    · exact containsSub_lower_trim _ q _ _ rfl (by decide) _ _ rfl (by decide) hsub
    · cases h
  have hany : forbiddenKeywords.any
      (fun k2 => containsSub k2 (lowerStr (trimChars q))) = true := by
    rw [List.any_eq_true]
    exact ⟨kw, hkw, hsub2⟩
  have hv : isValidSqlQuery q = false := by
    unfold isValidSqlQuery
    simp [hany]
  simp [executeSqlQuery, hv]

/-- Witness for the keyword rejection: a pure SELECT over a table whose name
contains `create`. -/
theorem executeSqlQuery_rejects_forbidden_keyword_substrings_witness :
    executeSqlQuery (str ("select * from created_orders"))
        (some [(str ("created_orders"), [([] : Row)])]) [str ("created_orders")] 100
      = ⟨sqlErr (str ("Invalid SQL query")), false⟩ :=
  executeSqlQuery_rejects_forbidden_keyword_substrings
    (str ("select * from created_orders"))
    (some [(str ("created_orders"), [([] : Row)])]) [str ("created_orders")] 100
    (str ("create")) (by decide) (by decide)
